import Mathlib

/-!
Verification of the schema-set resolution logic of `schema_doc_gen`.

Python strings are modelled as `List Char` (`Str`); Python dicts as
insertion-ordered association lists (`alookup` / `updD`); schema values as a
tagged variant `Val` whose payloads are abstract identifiers (the resolver
compares values only for equality, never inspects their contents); fallible
code returns `Except PyErr`.
-/

namespace SchemaDoc

/-- Python `str`, modelled as a list of characters. -/
abbrev Str := List Char

/-- A schema value in the registry: a structured `schema.Schema` object, a raw
`dict` (already-parsed JSON Schema), or a JSON-encoded string.  Payloads are
abstract identity tokens: two values are "the same underlying schema" exactly
when they are equal here (Python `__eq__`/identity for `Schema` objects). -/
inductive Val where
  | obj (n : Nat)
  | dict (n : Nat)
  | str (n : Nat)
deriving DecidableEq, Inhabited

/-- Python exceptions raised by the modelled code. -/
inductive PyErr where
  | keyError (k : Str)
  | typeError
  | valueError
deriving DecidableEq, Inhabited

/-- `dict.__hash__` availability: raw dicts are unhashable in Python;
`schema.Schema` objects and strings are hashable. -/
def hashable : Val → Bool
  | .dict _ => false
  | _ => true

/-- The schema registry: Python `dict[str, Schema]`, insertion ordered. -/
abbrev Registry := List (Str × Val)

/-- The schema set under construction: `dict[str, list[str]]`. -/
abbrev SSet := List (Str × List Str)

/-- Association-list lookup (Python `d[k]` / `d.get(k)`), first match. -/
def alookup {α : Type} {β : Type} [DecidableEq α] (k : α) : List (α × β) → Option β
  | [] => none
  | p :: rest => if p.1 = k then some p.2 else alookup k rest

/-- Python `d[k] = v`: update in place if the key is present (keeping its
original position, as CPython dicts do), else append at the end. -/
def updD {β : Type} : List (Str × β) → Str → β → List (Str × β)
  | [], k, v => [(k, v)]
  | p :: rest, k, v =>
    if p.1 = k then (p.1, v) :: rest else p :: updD rest k v

/-- Python `key.split(":")` on the character list. -/
def splitChars : List Char → List (List Char)
  | [] => [[]]
  | c :: rest =>
    if c = ':' then [] :: splitChars rest
    else
      match splitChars rest with
      | g :: gs => (c :: g) :: gs
      | [] => [[c]]

/-- Does `sub` match at the head of `s`? -/
def startsWithList : Str → Str → Bool
  | [], _ => true
  | _ :: _, [] => false
  | a :: as, b :: bs => decide (a = b) && startsWithList as bs

/-- Python substring test `sub in s`. -/
def hasSub (sub : Str) : Str → Bool
  | [] => decide (sub = ([] : Str))
  | c :: rest => startsWithList sub (c :: rest) || hasSub sub rest

/-- `list(dict.fromkeys(l))`: first-occurrence deduplication. -/
def dedupFirst (seen : List Str) : List Str → List Str
  | [] => []
  | x :: xs => if x ∈ seen then dedupFirst seen xs else x :: dedupFirst (x :: seen) xs

/-- Effectful `map` over `Except`, evaluating left to right and stopping at the
first raised exception (Python list/dict comprehension order). -/
def mapE {α β : Type} (f : α → Except PyErr β) : List α → Except PyErr (List β)
  | [] => .ok []
  | x :: xs =>
    match f x with
    | .error e => .error e
    | .ok y =>
      match mapE f xs with
      | .error e => .error e
      | .ok ys => .ok (y :: ys)

/-- The reverse-alias map `schemas_rev : defaultdict[Val, list[str]]`. -/
abbrev RevMap := List (Val × List Str)

/-- `schemas_rev[schema].append(key)`: append `k` to the group of value `v`,
creating the group at the end if the value has not been seen yet. -/
def addRev : RevMap → Val → Str → RevMap
  | [], v, k => [(v, [k])]
  | p :: rest, v, k =>
    if p.1 = v then (p.1, p.2 ++ [k]) :: rest else p :: addRev rest v k

/-- The loop `for key, schema in reversed(schema_dict.items()): if key in
indiv_schemas: schemas_rev[schema].append(key)`.  Hashing the unhashable raw
dict used as the defaultdict key raises `TypeError`. -/
def revFold (indiv : List Str) : List (Str × Val) → RevMap → Except PyErr RevMap
  | [], m => .ok m
  | q :: rest, m =>
    if q.1 ∈ indiv then
      if hashable q.2 then revFold indiv rest (addRev m q.2 q.1)
      else .error .typeError
    else revFold indiv rest m

/-- Build `schemas_rev` from the registry (iterated in reverse) and the set of
individually requested schema keys. -/
def buildRev (reg : Registry) (indiv : List Str) : Except PyErr RevMap :=
  revFold indiv reg.reverse []

/-- Merge an existing group with newly appended members (used to state the
`schemas_rev` group invariant); `none` stays absent only when nothing was
appended. -/
def combineG : Option (List Str) → List Str → Option (List Str)
  | some g, l => some (g ++ l)
  | none, l => if l = [] then none else some l

/-- `get_main_key`: scan the groups of `schemas_rev` in order; the first group
containing `key` yields its first element; otherwise raise `KeyError`. -/
def get_main_key (rev : RevMap) (key : Str) : Except PyErr Str :=
  match rev.find? (fun g => decide (key ∈ g.2)) with
  | some g => .ok (g.2.headD key)
  | none => .error (.keyError key)

/-- One iteration of the token-parsing loop of `build_schema_set`:
`match key.split(":")` with cases `["all"]`, `[name]`,
`[name, *_] if ":all" in key`, `[name, *schemas]`. -/
def parseTok (reg : Registry) (acc : SSet) (tok : Str) : SSet :=
  match splitChars tok with
  | [k] =>
    if k = "all".data then reg.foldl (fun a p => updD a p.1 [p.1]) acc
    else updD acc k [k]
  | name :: rest =>
    if hasSub ":all".data tok then updD acc name (reg.map Prod.fst)
    else updD acc name rest
  | [] => acc

/-- The full token-parsing loop (`schema_set` after the first `for`). -/
def parseTokens (reg : Registry) (toks : List Str) : SSet :=
  toks.foldl (parseTok reg) []

/-- `indiv_schemas`: the set of all keys referenced by the parsed schema set,
modelled as a list used only up to membership. -/
def indivOf (s : SSet) : List Str :=
  (s.map Prod.snd).flatten

/-- `build_schema_set(schema_dict, schema_keys)`: parse the request tokens,
group the requested keys by underlying schema value over the reversed
registry, and rebuild every output list through `get_main_key`,
deduplicating with `dict.fromkeys`. -/
def build_schema_set (reg : Registry) (toks : List Str) :
    Except PyErr (SSet × List Str) :=
  let sset := parseTokens reg toks
  let indiv := indivOf sset
  match buildRev reg indiv with
  | .error e => .error e
  | .ok rev =>
    match mapE (fun p =>
        match mapE (get_main_key rev) p.2 with
        | .error e => .error e
        | .ok ks => .ok (p.1, dedupFirst [] ks)) sset with
    | .error e => .error e
    | .ok out => .ok (out, indiv)

/-- The canonical key the spec's dedup rule assigns to requested key `k`: the
last key in the registry's forward (insertion) order among the *requested*
keys whose registry value equals `k`'s.  (Defaults to `k` itself when no such
key exists; under a successful `build_schema_set` run the default is never
used.) -/
def specCanon (reg : Registry) (indiv : List Str) (k : Str) : Str :=
  (((reg.filter
      (fun q => decide (q.1 ∈ indiv) && decide (alookup k reg = some q.2))).map
    Prod.fst).getLastD k)

/-- The canonical-key rule as literally stated by the claim under scrutiny:
the last key in the registry's forward order among *all* registry keys whose
value equals `k`'s, with no restriction to requested keys. -/
def specCanonAllKeys (reg : Registry) (k : Str) : Str :=
  (((reg.filter (fun q => decide (alookup k reg = some q.2))).map Prod.fst).getLastD k)

/-- Does parsing token `tok` (one iteration of the first loop of
`build_schema_set`) write the schema-set entry named `m`? -/
def assignsTo (reg : Registry) (tok m : Str) : Bool :=
  match splitChars tok with
  | [k] =>
    if k = "all".data then decide (m ∈ reg.map Prod.fst) else decide (m = k)
  | k :: _ => decide (m = k)
  | [] => false

/-- The key list that parsing token `tok` writes into entry `m` (meaningful
when `assignsTo reg tok m = true`). -/
def tokVal (reg : Registry) (tok m : Str) : List Str :=
  match splitChars tok with
  | [k] => if k = "all".data then [m] else [k]
  | _ :: rest => if hasSub ":all".data tok then reg.map Prod.fst else rest
  | [] => []

/-- The last token of `toks` that assigns entry `m`, as the value it writes. -/
def findLastAssign (reg : Registry) (toks : List Str) (m : Str) : Option (List Str) :=
  toks.foldl (fun o tok => if assignsTo reg tok m then some (tokVal reg tok m) else o) none

/-- What `process_schema` hands to the external Markdown generator: the
`json_schema` argument resolved from the registry value (structured object
rendered with the display name, raw dict passed through, JSON string parsed). -/
inductive Resolved where
  | fromObj (n : Nat) (title : Str)
  | fromDict (n : Nat)
  | fromJson (n : Nat)
deriving DecidableEq, Inhabited

/-- `process_schema(schemas, schema_key, name=None)` up to the external
`jsonschema_markdown.generate` call.  With a string `schema_key` the display
name defaults to the key; a missing key (or unsupported value type) raises
`KeyError`. -/
def process_schema (schemas : Registry) (schema_key : Str) (name : Option Str) :
    Except PyErr Resolved :=
  let nm := name.getD schema_key
  match alookup schema_key schemas with
  | some (.obj n) => .ok (.fromObj n nm)
  | some (.dict n) => .ok (.fromDict n)
  | some (.str n) => .ok (.fromJson n)
  | none => .error (.keyError schema_key)

/-- Python `%`-formatting of a single string argument, restricted to the `%s`
and `%%` conversions (the only ones the tool's format strings use): `%s`
substitutes the argument exactly once; a dangling `%`, an unconsumed
argument, or a second `%s` raises.  The `used` flag records whether the
argument has been consumed. -/
def formatS (key : Str) : Str → Bool → Option Str
  | [], used => if used then some [] else none
  | c :: rest, used =>
    if c = '%' then
      match rest with
      | [] => none
      | c2 :: rest2 =>
        if c2 = 's' then
          if used then none
          else (formatS key rest2 true).map (fun r => key ++ r)
        else if c2 = '%' then (formatS key rest2 used).map (fun r => '%' :: r)
        else none
    else (formatS key rest used).map (fun r => c :: r)

/-- `get_filename(fmt, key) = fmt % key`. -/
def get_filename (fmt key : Str) : Option Str :=
  formatS key fmt false

/-- The file-system facts `clear_folder` consults: the current working
directory and which folders exist, with paths as resolved identifiers (so
Python's `samefile` is equality). -/
structure Fs where
  cwd : Str
  existing : List Str
deriving DecidableEq

/-- Observable side effects of a run. -/
inductive Effect where
  | mkdirE (p : Str)
  | rmtreeE (p : Str)
  | warnCwd
  | promptE
  | cancelMsg
  | printMsg
  | write (p : Str)
  | exitE
deriving DecidableEq, Inhabited

/-- Python `resp.strip().lower() == "y"` for the confirmation prompt
(whitespace strip and ASCII lowering). -/
def respYes (resp : Str) : Bool :=
  decide ((((resp.dropWhile Char.isWhitespace).reverse.dropWhile
      Char.isWhitespace).reverse.map Char.toLower) = "y".data)

/-- `clear_folder(folder, force=..., verbose=...)` with the user's prompt
reply `resp`; returns the emitted effects and whether `sys.exit` ran. -/
def clear_folder (fs : Fs) (folder : Str) (force verbose : Bool) (resp : Str) :
    List Effect × Bool :=
  if folder ∉ fs.existing then ([.mkdirE folder], false)
  else if folder = fs.cwd then ([.warnCwd], false)
  else if ¬force ∧ ¬respYes resp then ([.promptE, .cancelMsg, .exitE], true)
  else ((if force then [] else [.promptE]) ++
        (if verbose then [.printMsg] else []) ++
        [.rmtreeE folder, .mkdirE folder], false)

/-- The output-writing loop of `main`: for each resolved entry, render every
key of its block with `process_schema` and write one file; a render failure
propagates after the files already written. -/
def writeLoop (schemas : Registry) (folder : Str) (verbose : Bool) :
    SSet → List Str → List Effect × Option PyErr
  | [], [] => ([], none)
  | p :: rest, o :: os =>
    let ve := if verbose then [Effect.printMsg] else []
    match mapE (fun k => process_schema schemas k none) p.2 with
    | .error e => (ve, some e)
    | .ok _ =>
      let (es, err) := writeLoop schemas folder verbose rest os
      (ve ++ [Effect.write (folder ++ '/' :: o)] ++ es, err)
  | _, _ => ([], some .valueError)

/-- `main(...)`: resolve the schema set, compute output names, optionally
clear the output folder, write every output file, and optionally write the
index.  Returns the effect trace and the exception (if any) that aborted it;
an exception raised by `build_schema_set` or the filename formatting happens
before any file-system mutation. -/
def mainRun (fs : Fs) (schemas : Registry) (schema_keys : List Str)
    (out_name_fmt out_folder : Str) (verbose clean force_clear write_index : Bool)
    (resp : Str) : List Effect × Option PyErr :=
  match build_schema_set schemas schema_keys with
  | .error e => ([], some e)
  | .ok (sset, _req) =>
    match mapE (fun p =>
        match get_filename out_name_fmt p.1 with
        | some s => .ok s
        | none => .error PyErr.valueError) sset with
    | .error e => ([], some e)
    | .ok outNames =>
      let ve := if verbose then [Effect.printMsg] else []
      let (ce, exited) :=
        if clean then clear_folder fs out_folder force_clear verbose resp
        else ([], false)
      if exited then (ve ++ ce, none)
      else
        let (we, err) := writeLoop schemas out_folder verbose sset outNames
        match err with
        | some e => (ve ++ ce ++ we, some e)
        | none =>
          (ve ++ ce ++ we ++
            (if write_index then [Effect.write (out_folder ++ '/' :: "index.rst".data)] else []),
           none)

/-! ### Association-list lemmas -/

theorem alookup_append {α β : Type} [DecidableEq α] (k : α) (a b : List (α × β)) :
    alookup k (a ++ b) =
      match alookup k a with
      | some v => some v
      | none => alookup k b := by
  induction a with
  | nil => simp [alookup]
  | cons p rest ih =>
    by_cases h : p.1 = k <;> simp [alookup, h, ih]

theorem mem_of_alookup {α β : Type} [DecidableEq α] {k : α} {v : β} {l : List (α × β)}
    (h : alookup k l = some v) : (k, v) ∈ l := by
  induction l with
  | nil => simp [alookup] at h
  | cons p rest ih =>
    obtain ⟨a, b⟩ := p
    by_cases hp : a = k
    · simp only [alookup, if_pos hp] at h
      cases h
      subst hp
      exact List.mem_cons_self _ _
    · simp only [alookup, if_neg hp] at h
      exact List.mem_cons_of_mem _ (ih h)

theorem alookup_isSome_of_mem {α β : Type} [DecidableEq α] {k : α} {v : β} {l : List (α × β)}
    (h : (k, v) ∈ l) : ∃ w, alookup k l = some w := by
  induction l with
  | nil => simp at h
  | cons p rest ih =>
    obtain ⟨a, b⟩ := p
    by_cases hp : a = k
    · exact ⟨b, by simp [alookup, hp]⟩
    · rw [List.mem_cons] at h
      rcases h with h | h
      · cases h; simp at hp
      · simpa [alookup, hp] using ih h

theorem alookup_of_mem_nodup {α β : Type} [DecidableEq α] {k : α} {v : β} {l : List (α × β)}
    (hnd : (l.map Prod.fst).Nodup) (h : (k, v) ∈ l) : alookup k l = some v := by
  induction l with
  | nil => simp at h
  | cons p rest ih =>
    obtain ⟨a, b⟩ := p
    simp only [List.map_cons, List.nodup_cons] at hnd
    rw [List.mem_cons] at h
    rcases h with h | h
    · cases h; simp [alookup]
    · have hp : a ≠ k := by
        intro hk
        subst hk
        exact hnd.1 (List.mem_map_of_mem Prod.fst h)
      simpa [alookup, hp] using ih hnd.2 h

theorem alookup_unique_nodup {α β : Type} [DecidableEq α] {k : α} {v w : β} {l : List (α × β)}
    (hnd : (l.map Prod.fst).Nodup) (h1 : (k, v) ∈ l) (h2 : (k, w) ∈ l) : v = w := by
  have e1 := alookup_of_mem_nodup hnd h1
  have e2 := alookup_of_mem_nodup hnd h2
  rw [e1] at e2
  exact Option.some.inj e2

theorem updD_alookup {β : Type} (d : List (Str × β)) (k m : Str) (v : β) :
    alookup m (updD d k v) = if m = k then some v else alookup m d := by
  induction d with
  | nil =>
    by_cases h : m = k
    · simp [updD, alookup, h]
    · have h' : ¬ k = m := fun hh => h hh.symm
      simp [updD, alookup, h, h']
  | cons p rest ih =>
    obtain ⟨a, b⟩ := p
    by_cases hak : a = k
    · subst hak
      by_cases hma : m = a
      · simp [updD, alookup, hma]
      · have h' : ¬ a = m := fun hh => hma hh.symm
        simp [updD, alookup, hma, h']
    · simp only [updD, if_neg hak, alookup, ih]
      by_cases ham : a = m
      · by_cases hmk : m = k
        · exact absurd (ham.trans hmk) hak
        · simp [ham, hmk]
      · by_cases hmk : m = k <;> simp [ham, hmk, hak]

theorem updD_mem_keys {β : Type} {d : List (Str × β)} {k x : Str} {v : β}
    (h : x ∈ (updD d k v).map Prod.fst) : x ∈ d.map Prod.fst ∨ x = k := by
  induction d with
  | nil => simpa [updD] using h
  | cons p rest ih =>
    by_cases hp : p.1 = k
    · simp only [updD, if_pos hp, List.map_cons, List.mem_cons] at h
      rcases h with h | h
      · exact Or.inl (List.mem_cons.mpr (Or.inl h))
      · exact Or.inl (List.mem_cons.mpr (Or.inr h))
    · simp only [updD, if_neg hp, List.map_cons, List.mem_cons] at h
      rcases h with h | h
      · exact Or.inl (List.mem_cons.mpr (Or.inl h))
      · rcases ih h with h' | h'
        · exact Or.inl (List.mem_cons_of_mem _ h')
        · exact Or.inr h'

theorem updD_keys_nodup {β : Type} {d : List (Str × β)} (k : Str) (v : β)
    (hnd : (d.map Prod.fst).Nodup) : ((updD d k v).map Prod.fst).Nodup := by
  induction d with
  | nil => simp [updD]
  | cons p rest ih =>
    simp only [List.map_cons, List.nodup_cons] at hnd
    by_cases hp : p.1 = k
    · simp only [updD, if_pos hp, List.map_cons, List.nodup_cons]
      exact hnd
    · simp only [updD, if_neg hp, List.map_cons, List.nodup_cons]
      refine ⟨?_, ih hnd.2⟩
      intro hmem
      rcases updD_mem_keys hmem with h | h
      · exact hnd.1 h
      · exact hp h

theorem updD_fresh {β : Type} {d : List (Str × β)} {k : Str} (v : β)
    (h : alookup k d = none) : updD d k v = d ++ [(k, v)] := by
  induction d with
  | nil => rfl
  | cons p rest ih =>
    by_cases hp : p.1 = k
    · simp [alookup, hp] at h
    · simp only [alookup, if_neg hp] at h
      simp [updD, hp, ih h]

/-! ### `dedupFirst` lemmas -/

theorem mem_of_mem_dedupFirst {x : Str} : ∀ {seen l : List Str},
    x ∈ dedupFirst seen l → x ∈ l := by
  intro seen l
  induction l generalizing seen with
  | nil => simp [dedupFirst]
  | cons y ys ih =>
    intro h
    by_cases hy : y ∈ seen
    · simp only [dedupFirst, if_pos hy] at h
      exact List.mem_cons_of_mem _ (ih h)
    · simp only [dedupFirst, if_neg hy] at h
      rw [List.mem_cons] at h
      rcases h with h | h
      · simp [h]
      · exact List.mem_cons_of_mem _ (ih h)

theorem dedupFirst_eq_self : ∀ {seen l : List Str},
    l.Nodup → (∀ x ∈ l, x ∉ seen) → dedupFirst seen l = l := by
  intro seen l
  induction l generalizing seen with
  | nil => intro _ _; rfl
  | cons y ys ih =>
    intro hnd hfr
    have hy : y ∉ seen := hfr y (by simp)
    simp only [dedupFirst, if_neg hy]
    congr 1
    apply ih (List.nodup_cons.mp hnd).2
    intro x hx
    simp only [List.mem_cons, not_or]
    exact ⟨fun h => (List.nodup_cons.mp hnd).1 (h ▸ hx), hfr x (List.mem_cons_of_mem _ hx)⟩

/-! ### `mapE` lemmas -/

theorem mapE_ok_of_forall {α β : Type} {f : α → Except PyErr β} {l : List α}
    (g : α → β) (h : ∀ x ∈ l, f x = .ok (g x)) : mapE f l = .ok (l.map g) := by
  induction l with
  | nil => rfl
  | cons x xs ih =>
    simp only [mapE, h x (by simp), ih (fun y hy => h y (List.mem_cons_of_mem _ hy))]
    rfl

theorem mapE_ok_mem_inv {α β : Type} {f : α → Except PyErr β} {l : List α} {l' : List β}
    (h : mapE f l = .ok l') : ∀ y ∈ l', ∃ x ∈ l, f x = .ok y := by
  induction l generalizing l' with
  | nil =>
    simp only [mapE] at h
    cases h
    simp
  | cons x xs ih =>
    simp only [mapE] at h
    cases hx : f x with
    | error e => rw [hx] at h; exact absurd h (by simp)
    | ok y0 =>
      rw [hx] at h
      cases hxs : mapE f xs with
      | error e => rw [hxs] at h; exact absurd h (by simp)
      | ok ys =>
        rw [hxs] at h
        cases h
        intro y hy
        rw [List.mem_cons] at hy
        rcases hy with h | h
        · exact ⟨x, by simp, h ▸ hx⟩
        · obtain ⟨x', hx', he⟩ := ih hxs y h
          exact ⟨x', List.mem_cons_of_mem _ hx', he⟩

theorem mapE_ok_forall {α β : Type} {f : α → Except PyErr β} {l : List α} {l' : List β}
    (h : mapE f l = .ok l') : ∀ x ∈ l, ∃ y, f x = .ok y := by
  induction l generalizing l' with
  | nil => simp
  | cons x xs ih =>
    simp only [mapE] at h
    cases hx : f x with
    | error e => rw [hx] at h; exact absurd h (by simp)
    | ok y0 =>
      rw [hx] at h
      cases hxs : mapE f xs with
      | error e => rw [hxs] at h; exact absurd h (by simp)
      | ok ys =>
        intro z hz
        rw [List.mem_cons] at hz
        rcases hz with h' | h'
        · exact ⟨y0, h' ▸ hx⟩
        · exact ih hxs z h'

theorem mapE_error_inv {α β : Type} {f : α → Except PyErr β} {l : List α} {e : PyErr}
    (h : mapE f l = .error e) : ∃ x ∈ l, f x = .error e := by
  induction l with
  | nil => simp [mapE] at h
  | cons x xs ih =>
    simp only [mapE] at h
    cases hx : f x with
    | error e' =>
      rw [hx] at h
      cases h
      exact ⟨x, by simp, hx⟩
    | ok y0 =>
      rw [hx] at h
      cases hxs : mapE f xs with
      | error e' =>
        rw [hxs] at h
        cases h
        obtain ⟨x', hx', he⟩ := ih hxs
        exact ⟨x', List.mem_cons_of_mem _ hx', he⟩
      | ok ys => rw [hxs] at h; exact absurd h (by simp)

theorem mapE_ok_eq_map {α β : Type} {f : α → Except PyErr β} {l : List α} {l' : List β}
    (g : α → β) (h : mapE f l = .ok l')
    (hg : ∀ x ∈ l, ∀ y, f x = .ok y → y = g x) : l' = l.map g := by
  induction l generalizing l' with
  | nil => simp only [mapE] at h; cases h; rfl
  | cons x xs ih =>
    simp only [mapE] at h
    cases hx : f x with
    | error e => rw [hx] at h; exact absurd h (by simp)
    | ok y0 =>
      rw [hx] at h
      cases hxs : mapE f xs with
      | error e => rw [hxs] at h; exact absurd h (by simp)
      | ok ys =>
        rw [hxs] at h
        cases h
        have h1 := hg x (by simp) y0 hx
        have h2 := ih hxs (fun z hz => hg z (List.mem_cons_of_mem _ hz))
        simp [h1, h2]

theorem mapE_error_of_mem {α β : Type} {f : α → Except PyErr β} {l : List α}
    {x : α} {e : PyErr} (hx : x ∈ l) (he : f x = .error e) :
    ∃ e', mapE f l = .error e' := by
  cases h : mapE f l with
  | error e' => exact ⟨e', rfl⟩
  | ok l' =>
    obtain ⟨y, hy⟩ := mapE_ok_forall h x hx
    rw [he] at hy
    exact absurd hy (by simp)

/-! ### `splitChars` and `hasSub` lemmas -/

theorem splitChars_ne_nil (s : Str) : splitChars s ≠ [] := by
  cases s with
  | nil => simp [splitChars]
  | cons c rest =>
    by_cases h : c = ':'
    · simp [splitChars, h]
    · simp only [splitChars, if_neg h]
      cases splitChars rest <;> simp

theorem splitChars_no_colon {s : Str} (h : ':' ∉ s) : splitChars s = [s] := by
  induction s with
  | nil => rfl
  | cons c rest ih =>
    simp only [List.mem_cons, not_or] at h
    have hc : ¬ c = ':' := fun hc => h.1 hc.symm
    simp [splitChars, hc, ih h.2]

theorem splitChars_append_colon {n : Str} (r : Str) (h : ':' ∉ n) :
    splitChars (n ++ ':' :: r) = n :: splitChars r := by
  induction n with
  | nil => simp [splitChars]
  | cons c rest ih =>
    simp only [List.mem_cons, not_or] at h
    have hc : ¬ c = ':' := fun hc => h.1 hc.symm
    simp [splitChars, hc, ih h.2]

theorem splitChars_single_inv : ∀ {s k : Str}, splitChars s = [k] → s = k := by
  intro s
  induction s with
  | nil => intro k h; simpa [splitChars] using (List.cons.injEq _ _ _ _ ▸ h :)
  | cons c rest ih =>
    intro k h
    by_cases hc : c = ':'
    · simp only [splitChars, if_pos hc] at h
      cases hsp : splitChars rest with
      | nil => exact absurd hsp (splitChars_ne_nil rest)
      | cons g gs => rw [hsp] at h; simp at h
    · simp only [splitChars, if_neg hc] at h
      cases hsp : splitChars rest with
      | nil => exact absurd hsp (splitChars_ne_nil rest)
      | cons g gs =>
        rw [hsp] at h
        simp only [List.cons.injEq] at h
        obtain ⟨h1, h2⟩ := h
        subst h2
        have := ih hsp
        simp [← h1, this]

theorem startsWithList_append_self : ∀ (sub r : Str), startsWithList sub (sub ++ r) = true := by
  intro sub
  induction sub with
  | nil => intro r; rfl
  | cons a as ih => intro r; simp [startsWithList, ih r]

theorem hasSub_of_startsWith {sub s : Str} (h : startsWithList sub s = true) :
    hasSub sub s = true := by
  cases s with
  | nil =>
    cases sub with
    | nil => rfl
    | cons a as => simp [startsWithList] at h
  | cons c rest => simp [hasSub, h]

theorem hasSub_cons {sub r : Str} (c : Char) (h : hasSub sub r = true) :
    hasSub sub (c :: r) = true := by
  simp [hasSub, h]

theorem hasSub_append_left {sub s : Str} (p : Str) (h : hasSub sub s = true) :
    hasSub sub (p ++ s) = true := by
  induction p with
  | nil => simpa
  | cons c cs ih => exact hasSub_cons c ih

theorem hasSub_colon_all (n : Str) : hasSub ":all".data (n ++ ":all".data) = true := by
  apply hasSub_append_left
  apply hasSub_of_startsWith
  have := startsWithList_append_self ":all".data []
  simpa using this

/-! ### Parse-phase lemmas -/

theorem allExpand_alookup (reg : Registry) (m : Str) :
    ∀ acc : SSet, alookup m (reg.foldl (fun a p => updD a p.1 [p.1]) acc) =
      if m ∈ reg.map Prod.fst then some [m] else alookup m acc := by
  induction reg with
  | nil => intro acc; simp
  | cons q rest ih =>
    intro acc
    simp only [List.foldl_cons, ih, List.map_cons, List.mem_cons]
    by_cases hr : m ∈ rest.map Prod.fst
    · simp [hr]
    · by_cases hq : m = q.1
      · simp [hq, updD_alookup]
      · have : ¬ (m = q.1 ∨ m ∈ rest.map Prod.fst) := by simp [hq, hr]
        simp [hr, this, updD_alookup, hq]

theorem parseTok_alookup (reg : Registry) (acc : SSet) (tok m : Str) :
    alookup m (parseTok reg acc tok) =
      if assignsTo reg tok m then some (tokVal reg tok m) else alookup m acc := by
  unfold parseTok assignsTo tokVal
  cases hsp : splitChars tok with
  | nil => simp
  | cons g gs =>
    cases gs with
    | nil =>
      by_cases hall : g = "all".data
      · simp only [hall, eq_self_iff_true, if_true]
        rw [allExpand_alookup]
        by_cases hm : m ∈ reg.map Prod.fst <;> simp [hm]
      · simp only [if_neg hall]
        rw [updD_alookup]
        by_cases hm : m = g <;> simp [hm]
    | cons g2 gs2 =>
      by_cases hall : hasSub ":all".data tok
      · simp [hall, updD_alookup]
      · simp [hall, updD_alookup]

theorem foldl_parseTok_alookup (reg : Registry) (m : Str) :
    ∀ (toks : List Str) (acc : SSet),
      alookup m (toks.foldl (parseTok reg) acc) =
        match findLastAssign reg toks m with
        | some ks => some ks
        | none => alookup m acc := by
  intro toks
  induction toks using List.reverseRecOn with
  | nil => intro acc; simp [findLastAssign]
  | append_singleton xs t ih =>
    intro acc
    rw [List.foldl_append]
    simp only [List.foldl_cons, List.foldl_nil]
    rw [parseTok_alookup]
    unfold findLastAssign
    rw [List.foldl_append]
    simp only [List.foldl_cons, List.foldl_nil]
    by_cases ha : assignsTo reg t m
    · simp [ha]
    · simp only [ha, if_neg, Bool.false_eq_true, if_false]
      have := ih acc
      unfold findLastAssign at this
      exact this

theorem parseTokens_alookup (reg : Registry) (toks : List Str) (m : Str) :
    alookup m (parseTokens reg toks) =
      match findLastAssign reg toks m with
      | some ks => some ks
      | none => none := by
  unfold parseTokens
  rw [foldl_parseTok_alookup]
  cases findLastAssign reg toks m <;> simp [alookup]

theorem foldl_updD_keys_nodup (reg : Registry) :
    ∀ acc : SSet, (acc.map Prod.fst).Nodup →
      ((reg.foldl (fun a p => updD a p.1 [p.1]) acc).map Prod.fst).Nodup := by
  induction reg with
  | nil => intro acc h; simpa using h
  | cons q rest ih =>
    intro acc h
    simp only [List.foldl_cons]
    exact ih _ (updD_keys_nodup _ _ h)

theorem parseTok_keys_nodup (reg : Registry) (acc : SSet) (tok : Str)
    (h : (acc.map Prod.fst).Nodup) : ((parseTok reg acc tok).map Prod.fst).Nodup := by
  unfold parseTok
  cases hsp : splitChars tok with
  | nil => exact h
  | cons g gs =>
    cases gs with
    | nil =>
      by_cases hall : g = "all".data
      · simp only [hall, if_pos rfl]
        exact foldl_updD_keys_nodup reg acc h
      · simp only [if_neg hall]
        exact updD_keys_nodup _ _ h
    | cons g2 gs2 =>
      by_cases hall : hasSub ":all".data tok <;>
        simp only [hall, if_true, Bool.false_eq_true, if_false] <;>
        exact updD_keys_nodup _ _ h

theorem parseTokens_keys_nodup (reg : Registry) (toks : List Str) :
    ((parseTokens reg toks).map Prod.fst).Nodup := by
  unfold parseTokens
  have : ∀ acc : SSet, (acc.map Prod.fst).Nodup →
      ((toks.foldl (parseTok reg) acc).map Prod.fst).Nodup := by
    induction toks with
    | nil => intro acc h; simpa using h
    | cons t rest ih =>
      intro acc h
      simp only [List.foldl_cons]
      exact ih _ (parseTok_keys_nodup reg acc t h)
  exact this [] (by simp)

theorem foldl_updD_fresh (reg : Registry) :
    ∀ acc : SSet, (reg.map Prod.fst).Nodup → (∀ p ∈ reg, alookup p.1 acc = none) →
      reg.foldl (fun a p => updD a p.1 [p.1]) acc =
        acc ++ reg.map (fun p => (p.1, [p.1])) := by
  induction reg with
  | nil => intro acc _ _; simp
  | cons q rest ih =>
    intro acc hnd hfr
    simp only [List.foldl_cons]
    rw [updD_fresh _ (hfr q (List.mem_cons_self q rest))]
    have hnd' : (rest.map Prod.fst).Nodup := (List.nodup_cons.mp (by simpa using hnd)).2
    have hfr' : ∀ p ∈ rest, alookup p.1 (acc ++ [(q.1, [q.1])]) = none := by
      intro p hp
      rw [alookup_append, hfr p (List.mem_cons_of_mem _ hp)]
      have hne : q.1 ≠ p.1 := by
        intro he
        exact (List.nodup_cons.mp (by simpa using hnd)).1
          (he ▸ List.mem_map_of_mem Prod.fst hp)
      simp [alookup, hne]
    rw [ih (acc ++ [(q.1, [q.1])]) hnd' hfr']
    simp

theorem parseTokens_all (reg : Registry) (hnd : (reg.map Prod.fst).Nodup) :
    parseTokens reg ["all".data] = reg.map (fun p => (p.1, [p.1])) := by
  unfold parseTokens
  simp only [List.foldl_cons, List.foldl_nil]
  unfold parseTok
  have hsp : splitChars "all".data = ["all".data] :=
    splitChars_no_colon (by decide)
  rw [hsp]
  simp only [if_pos rfl]
  rw [foldl_updD_fresh reg [] hnd (by intro p _; rfl)]
  simp

/-! ### `revFold` lemmas -/

theorem combineG_nil (o : Option (List Str)) : combineG o [] = o := by
  cases o <;> simp [combineG]

theorem combineG_none (l : List Str) :
    combineG none l = if l = [] then none else some l := rfl

theorem addRev_alookup (m : RevMap) (u : Val) (k : Str) (v : Val) :
    alookup v (addRev m u k) =
      if u = v then
        match alookup v m with
        | some g => some (g ++ [k])
        | none => some [k]
      else alookup v m := by
  induction m with
  | nil =>
    by_cases h : u = v
    · simp [addRev, alookup, h]
    · have h' : ¬ v = u := fun hh => h hh.symm
      simp [addRev, alookup, h, h']
  | cons p rest ih =>
    by_cases hp : p.1 = u
    · subst hp
      by_cases hv : p.1 = v
      · simp [addRev, alookup, hv]
      · have h' : ¬ v = p.1 := fun hh => hv hh.symm
        simp [addRev, alookup, hv, h']
    · by_cases hv : p.1 = v
      · subst hv
        have h' : ¬ u = p.1 := fun hh => hp hh.symm
        simp [addRev, alookup, hp, h']
      · simp [addRev, alookup, hp, hv, ih]

theorem addRev_mem_inv {m : RevMap} {u : Val} {k : Str} {w : Val} {g : List Str}
    (h : (w, g) ∈ addRev m u k) :
    (w, g) ∈ m ∨ (w = u ∧ g = [k]) ∨
      (w = u ∧ ∃ g₁, (u, g₁) ∈ m ∧ g = g₁ ++ [k]) := by
  induction m with
  | nil =>
    simp only [addRev, List.mem_singleton] at h
    cases h
    exact Or.inr (Or.inl ⟨rfl, rfl⟩)
  | cons p rest ih =>
    by_cases hp : p.1 = u
    · simp only [addRev, if_pos hp, List.mem_cons] at h
      rcases h with h | h
      · rw [Prod.ext_iff] at h
        have hup : (u, p.2) = p := by rw [← hp]
        exact Or.inr (Or.inr ⟨h.1.trans hp, p.2,
          List.mem_cons.mpr (Or.inl hup), h.2⟩)
      · exact Or.inl (List.mem_cons_of_mem _ h)
    · simp only [addRev, if_neg hp, List.mem_cons] at h
      rcases h with h | h
      · exact Or.inl (List.mem_cons.mpr (Or.inl h))
      · rcases ih h with h' | h' | ⟨he, g₁, hg₁, hg⟩
        · exact Or.inl (List.mem_cons_of_mem _ h')
        · exact Or.inr (Or.inl h')
        · exact Or.inr (Or.inr ⟨he, g₁, List.mem_cons_of_mem _ hg₁, hg⟩)

theorem addRev_mem_keys {m : RevMap} {u w : Val} {k : Str}
    (h : w ∈ (addRev m u k).map Prod.fst) : w ∈ m.map Prod.fst ∨ w = u := by
  induction m with
  | nil => simpa [addRev] using h
  | cons p rest ih =>
    by_cases hp : p.1 = u
    · simp only [addRev, if_pos hp, List.map_cons, List.mem_cons] at h
      rcases h with h | h
      · exact Or.inl (List.mem_cons.mpr (Or.inl h))
      · exact Or.inl (List.mem_cons.mpr (Or.inr h))
    · simp only [addRev, if_neg hp, List.map_cons, List.mem_cons] at h
      rcases h with h | h
      · exact Or.inl (List.mem_cons.mpr (Or.inl h))
      · rcases ih h with h' | h'
        · exact Or.inl (List.mem_cons_of_mem _ h')
        · exact Or.inr h'

theorem addRev_keys_nodup {m : RevMap} (u : Val) (k : Str)
    (hnd : (m.map Prod.fst).Nodup) : ((addRev m u k).map Prod.fst).Nodup := by
  induction m with
  | nil => simp [addRev]
  | cons p rest ih =>
    simp only [List.map_cons, List.nodup_cons] at hnd
    by_cases hp : p.1 = u
    · simp only [addRev, if_pos hp, List.map_cons, List.nodup_cons]
      exact hnd
    · simp only [addRev, if_neg hp, List.map_cons, List.nodup_cons]
      refine ⟨?_, ih hnd.2⟩
      intro hmem
      rcases addRev_mem_keys hmem with h | h
      · exact hnd.1 h
      · exact hp h

theorem revFold_congr {i₁ i₂ : List Str} (hiff : ∀ x, x ∈ i₁ ↔ x ∈ i₂) :
    ∀ (L : List (Str × Val)) (m : RevMap), revFold i₁ L m = revFold i₂ L m := by
  intro L
  induction L with
  | nil => intro m; rfl
  | cons q rest ih =>
    intro m
    by_cases h : q.1 ∈ i₁
    · have h2 : q.1 ∈ i₂ := (hiff q.1).mp h
      by_cases hh : hashable q.2
      · simp [revFold, h, h2, hh, ih]
      · simp [revFold, h, h2, hh]
    · have h2 : q.1 ∉ i₂ := fun hx => h ((hiff q.1).mpr hx)
      simp [revFold, h, h2, ih]

theorem revFold_ok_of_hashable (indiv : List Str) :
    ∀ {L : List (Str × Val)} (m : RevMap),
      (∀ q ∈ L, q.1 ∈ indiv → hashable q.2 = true) →
      ∃ m', revFold indiv L m = .ok m' := by
  intro L
  induction L with
  | nil => intro m _; exact ⟨m, rfl⟩
  | cons q rest ih =>
    intro m hh
    by_cases h : q.1 ∈ indiv
    · have := hh q (by simp) h
      simp only [revFold, if_pos h, this, if_true]
      exact ih _ (fun p hp => hh p (List.mem_cons_of_mem _ hp))
    · simp only [revFold, if_neg h]
      exact ih _ (fun p hp => hh p (List.mem_cons_of_mem _ hp))

theorem revFold_error_of_unhashable {indiv : List Str} :
    ∀ {L : List (Str × Val)} (m : RevMap),
      (∃ q ∈ L, q.1 ∈ indiv ∧ hashable q.2 = false) →
      revFold indiv L m = .error .typeError := by
  intro L
  induction L with
  | nil => intro m h; simp at h
  | cons q0 rest ih =>
    intro m h
    obtain ⟨q, hq, hqi, hqh⟩ := h
    rw [List.mem_cons] at hq
    by_cases h0 : q0.1 ∈ indiv
    · by_cases hh : hashable q0.2
      · have hqr : q ∈ rest := by
          rcases hq with hq | hq
          · rw [hq] at hqh; rw [hqh] at hh; exact absurd hh (by simp)
          · exact hq
        simp only [revFold, if_pos h0, hh, if_true]
        exact ih _ ⟨q, hqr, hqi, hqh⟩
      · simp only [revFold, if_pos h0]
        simp only [Bool.not_eq_true] at hh
        simp [hh]
    · have hqr : q ∈ rest := by
        rcases hq with hq | hq
        · rw [hq] at hqi; exact absurd hqi h0
        · exact hq
      simp only [revFold, if_neg h0]
      exact ih _ ⟨q, hqr, hqi, hqh⟩

theorem revFold_error_shape {indiv : List Str} :
    ∀ {L : List (Str × Val)} {m : RevMap} {e : PyErr},
      revFold indiv L m = .error e → e = .typeError := by
  intro L
  induction L with
  | nil => intro m e h; simp [revFold] at h
  | cons q rest ih =>
    intro m e h
    by_cases h0 : q.1 ∈ indiv
    · by_cases hh : hashable q.2
      · simp only [revFold, if_pos h0, hh, if_true] at h
        exact ih h
      · have hh' : hashable q.2 = false := by simpa using hh
        simp only [revFold, if_pos h0, hh', Bool.false_eq_true, if_false] at h
        cases h
        rfl
    · simp only [revFold, if_neg h0] at h
      exact ih h

theorem revFold_mem {indiv : List Str} :
    ∀ {L : List (Str × Val)} {m m' : RevMap},
      revFold indiv L m = .ok m' →
      ∀ {w : Val} {g : List Str} {x : Str}, (w, g) ∈ m' → x ∈ g →
        (x ∈ indiv ∧ (x, w) ∈ L) ∨ ∃ g₀, (w, g₀) ∈ m ∧ x ∈ g₀ := by
  intro L
  induction L with
  | nil =>
    intro m m' h w g x hg hx
    simp only [revFold] at h
    cases h
    exact Or.inr ⟨g, hg, hx⟩
  | cons q rest ih =>
    intro m m' h w g x hg hx
    by_cases h0 : q.1 ∈ indiv
    · by_cases hh : hashable q.2
      · simp only [revFold, if_pos h0, hh, if_true] at h
        rcases ih h hg hx with ⟨hxi, hxw⟩ | ⟨g₀, hg₀, hx₀⟩
        · exact Or.inl ⟨hxi, List.mem_cons_of_mem _ hxw⟩
        · rcases addRev_mem_inv hg₀ with hm | ⟨he, hgk⟩ | ⟨he, g₁, hg₁, hgk⟩
          · exact Or.inr ⟨g₀, hm, hx₀⟩
          · subst hgk
            rw [List.mem_singleton] at hx₀
            subst hx₀
            exact Or.inl ⟨h0, by simp [he]⟩
          · subst hgk
            rw [List.mem_append, List.mem_singleton] at hx₀
            rcases hx₀ with hx₀ | hx₀
            · exact Or.inr ⟨g₁, he ▸ hg₁, hx₀⟩
            · subst hx₀
              exact Or.inl ⟨h0, by simp [he]⟩
      · have hh' : hashable q.2 = false := by simpa using hh
        simp [revFold, h0, hh'] at h
    · simp only [revFold, if_neg h0] at h
      rcases ih h hg hx with ⟨hxi, hxw⟩ | hr
      · exact Or.inl ⟨hxi, List.mem_cons_of_mem _ hxw⟩
      · exact Or.inr hr

theorem revFold_keys_nodup {indiv : List Str} :
    ∀ {L : List (Str × Val)} {m m' : RevMap},
      revFold indiv L m = .ok m' → (m.map Prod.fst).Nodup →
      (m'.map Prod.fst).Nodup := by
  intro L
  induction L with
  | nil => intro m m' h hnd; simp only [revFold] at h; cases h; exact hnd
  | cons q rest ih =>
    intro m m' h hnd
    by_cases h0 : q.1 ∈ indiv
    · by_cases hh : hashable q.2
      · simp only [revFold, if_pos h0, hh, if_true] at h
        exact ih h (addRev_keys_nodup _ _ hnd)
      · have hh' : hashable q.2 = false := by simpa using hh
        simp [revFold, h0, hh'] at h
    · simp only [revFold, if_neg h0] at h
      exact ih h hnd

theorem revFold_group_char {indiv : List Str} :
    ∀ {L : List (Str × Val)} {m m' : RevMap},
      revFold indiv L m = .ok m' → ∀ v : Val,
        alookup v m' = combineG (alookup v m)
          ((L.filter (fun q => decide (q.1 ∈ indiv) && decide (q.2 = v))).map Prod.fst) := by
  intro L
  induction L with
  | nil =>
    intro m m' h v
    simp only [revFold] at h
    cases h
    simp [combineG_nil]
  | cons q rest ih =>
    intro m m' h v
    by_cases h0 : q.1 ∈ indiv
    · by_cases hh : hashable q.2
      · simp only [revFold, if_pos h0, hh, if_true] at h
        rw [ih h v]
        rw [addRev_alookup]
        by_cases hv : q.2 = v
        · have hq : (decide (q.1 ∈ indiv) && decide (q.2 = v)) = true := by
            simp [h0, hv]
          rw [if_pos hv]
          simp only [List.filter_cons, hq, if_true, List.map_cons]
          cases hm : alookup v m with
          | some g => simp [hm, combineG]
          | none => simp [hm, combineG]
        · have hv' : ¬ (decide (q.1 ∈ indiv) && decide (q.2 = v)) = true := by
            simp [hv]
          rw [if_neg hv]
          simp [List.filter_cons, hv']
      · have hh' : hashable q.2 = false := by simpa using hh
        simp [revFold, h0, hh'] at h
    · simp only [revFold, if_neg h0] at h
      rw [ih h v]
      have hq : ¬ (decide (q.1 ∈ indiv) && decide (q.2 = v)) = true := by
        simp [h0]
      simp [List.filter_cons, hq]

/-! ### `get_main_key` characterization -/

theorem find?_eq_some_of_unique {α : Type} {p : α → Bool} {l : List α} {x : α}
    (hx : x ∈ l) (hp : p x = true) (hu : ∀ y ∈ l, p y = true → y = x) :
    l.find? p = some x := by
  induction l with
  | nil => simp at hx
  | cons z rest ih =>
    by_cases hz : p z = true
    · have hzx : z = x := hu z (by simp) hz
      subst hzx
      simp [List.find?_cons, hz]
    · have hxz : x ≠ z := fun he => hz (he ▸ hp)
      rw [List.mem_cons] at hx
      rcases hx with h | h
      · exact absurd h hxz
      · simp only [List.find?_cons]
        rw [Bool.not_eq_true] at hz
        rw [hz]
        exact ih h (fun y hy hpy => hu y (List.mem_cons_of_mem _ hy) hpy)

theorem headD_reverse {α : Type} : ∀ (l : List α) (d : α),
    l.reverse.headD d = l.getLastD d := by
  intro l
  induction l with
  | nil => intro d; rfl
  | cons x xs ih =>
    intro d
    cases xs with
    | nil => simp
    | cons y ys =>
      rw [List.getLastD_cons, ← ih x, List.reverse_cons]
      cases h : (y :: ys).reverse with
      | nil => exact absurd h (by simp)
      | cons a as => simp [h]

theorem get_main_key_spec {reg : Registry} {indiv : List Str} {rev : RevMap}
    {k : Str} {v : Val}
    (hnd : (reg.map Prod.fst).Nodup) (hrev : buildRev reg indiv = .ok rev)
    (hv : alookup k reg = some v) (hi : k ∈ indiv) :
    get_main_key rev k = .ok (specCanon reg indiv k) := by
  have hchar := revFold_group_char (L := reg.reverse) (m := []) hrev v
  have hnone : alookup v ([] : RevMap) = none := rfl
  rw [hnone] at hchar
  have hkv : (k, v) ∈ reg := mem_of_alookup hv
  have hkvr : (k, v) ∈ reg.reverse := List.mem_reverse.mpr hkv
  have hkG : k ∈ (reg.reverse.filter
      (fun q => decide (q.1 ∈ indiv) && decide (q.2 = v))).map Prod.fst := by
    exact List.mem_map.mpr ⟨(k, v), List.mem_filter.mpr ⟨hkvr, by simp [hi]⟩, rfl⟩
  have hGne : (reg.reverse.filter
      (fun q => decide (q.1 ∈ indiv) && decide (q.2 = v))).map Prod.fst ≠ [] := by
    intro he
    rw [he] at hkG
    simp at hkG
  have hG : alookup v rev = some ((reg.reverse.filter
      (fun q => decide (q.1 ∈ indiv) && decide (q.2 = v))).map Prod.fst) := by
    rw [hchar, combineG_none, if_neg hGne]
  have hGrev := mem_of_alookup hG
  have keysnd : (rev.map Prod.fst).Nodup :=
    revFold_keys_nodup hrev (by simp)
  have huniq : ∀ y ∈ rev, (fun g => decide (k ∈ g.2)) y = true →
      y = (v, (reg.reverse.filter
        (fun q => decide (q.1 ∈ indiv) && decide (q.2 = v))).map Prod.fst) := by
    intro y hy hpy
    obtain ⟨w, g⟩ := y
    have hkg : k ∈ g := of_decide_eq_true hpy
    rcases revFold_mem hrev hy hkg with ⟨_, hw⟩ | ⟨g₀, hg₀, _⟩
    · have hkw : (k, w) ∈ reg := List.mem_reverse.mp hw
      have hwv : v = w := alookup_unique_nodup hnd hkv hkw
      subst hwv
      have h2 := alookup_of_mem_nodup keysnd hy
      rw [hG] at h2
      rw [show g = ((reg.reverse.filter
        (fun q => decide (q.1 ∈ indiv) && decide (q.2 = v))).map Prod.fst) from
        (Option.some.inj h2).symm]
    · simp at hg₀
  have hfind : rev.find? (fun g => decide (k ∈ g.2)) =
      some (v, (reg.reverse.filter
        (fun q => decide (q.1 ∈ indiv) && decide (q.2 = v))).map Prod.fst) :=
    find?_eq_some_of_unique hGrev (decide_eq_true hkG) huniq
  have hgmk : get_main_key rev k = .ok (((reg.reverse.filter
      (fun q => decide (q.1 ∈ indiv) && decide (q.2 = v))).map Prod.fst).headD k) := by
    unfold get_main_key
    rw [hfind]
  rw [hgmk]
  congr 1
  rw [List.filter_reverse, List.map_reverse, headD_reverse]
  unfold specCanon
  congr 2
  apply List.filter_congr
  intro q _
  rw [hv]
  congr 1
  apply decide_eq_decide.mpr
  constructor
  · intro h; rw [h]
  · intro h; exact (Option.some.inj h).symm

theorem get_main_key_ok_inv {reg : Registry} {indiv : List Str} {rev : RevMap}
    {k c : Str} (hrev : buildRev reg indiv = .ok rev)
    (hok : get_main_key rev k = .ok c) :
    k ∈ indiv ∧ ∃ w, (k, w) ∈ reg := by
  unfold get_main_key at hok
  cases hf : rev.find? (fun g => decide (k ∈ g.2)) with
  | none => rw [hf] at hok; exact absurd hok (by simp)
  | some g =>
    have hmem := List.mem_of_find?_eq_some hf
    have hpred := List.find?_some hf
    obtain ⟨w, gl⟩ := g
    have hk : k ∈ gl := of_decide_eq_true hpred
    rcases revFold_mem hrev hmem hk with ⟨hi, hw⟩ | ⟨g₀, hg₀, _⟩
    · exact ⟨hi, w, List.mem_reverse.mp hw⟩
    · simp at hg₀

/-- Functional characterization of a successful `build_schema_set` run: the
requested-key set is that of the parsed token map, and every output list is
the parsed list mapped through the canonical-key substitution and
deduplicated. -/
theorem build_schema_set_ok_char {reg : Registry} {toks : List Str} {out : SSet}
    {indiv : List Str} (hnd : (reg.map Prod.fst).Nodup)
    (hok : build_schema_set reg toks = .ok (out, indiv)) :
    indiv = indivOf (parseTokens reg toks) ∧
    out = (parseTokens reg toks).map
      (fun p => (p.1, dedupFirst [] (p.2.map (specCanon reg indiv)))) := by
  simp only [build_schema_set] at hok
  split at hok
  · exact absurd hok (by simp)
  · rename_i rev hb
    split at hok
    · exact absurd hok (by simp)
    · rename_i out' hm
      have hoe : out' = out ∧ indivOf (parseTokens reg toks) = indiv := by
        refine ⟨?_, ?_⟩ <;> cases hok <;> rfl
      obtain ⟨ho, hind⟩ := hoe
      subst ho
      refine ⟨hind.symm, ?_⟩
      apply mapE_ok_eq_map _ hm
      intro p _ y hy
      cases hin : mapE (get_main_key rev) p.2 with
      | error e => rw [hin] at hy; exact absurd hy (by simp)
      | ok ks =>
        rw [hin] at hy
        have hy' : y = (p.1, dedupFirst [] ks) := by cases hy; rfl
        have hks : ks = p.2.map (specCanon reg indiv) := by
          apply mapE_ok_eq_map _ hin
          intro x hx c hc
          obtain ⟨hxi, w, hxw⟩ := get_main_key_ok_inv hb hc
          obtain ⟨w', hw'⟩ := alookup_isSome_of_mem hxw
          have hsp := get_main_key_spec (v := w') hnd hb hw' hxi
          rw [hc] at hsp
          have hcs : c = specCanon reg (indivOf (parseTokens reg toks)) x := by
            cases hsp
            rfl
          rw [hcs, hind]
        rw [hy', hks]

/-- The value returned by a successful `get_main_key` is itself a requested
key and a registry key. -/
theorem get_main_key_ok_val {reg : Registry} {indiv : List Str} {rev : RevMap}
    {x c : Str} (hrev : buildRev reg indiv = .ok rev)
    (hok : get_main_key rev x = .ok c) :
    c ∈ indiv ∧ ∃ w, (c, w) ∈ reg := by
  unfold get_main_key at hok
  cases hf : rev.find? (fun g => decide (x ∈ g.2)) with
  | none => rw [hf] at hok; exact absurd hok (by simp)
  | some g =>
    rw [hf] at hok
    have hmem := List.mem_of_find?_eq_some hf
    have hpred := List.find?_some hf
    obtain ⟨w, gl⟩ := g
    have hx : x ∈ gl := of_decide_eq_true hpred
    cases gl with
    | nil => simp at hx
    | cons c0 gl' =>
      have hc : c = c0 := by cases hok; rfl
      subst hc
      rcases revFold_mem hrev hmem (List.mem_cons_self c gl') with ⟨hi, hw⟩ | ⟨g₀, hg₀, _⟩
      · exact ⟨hi, w, List.mem_reverse.mp hw⟩
      · simp at hg₀

/-! ### Claim theorems -/

theorem formatS_tail {k : Str} : ∀ {b : Str}, '%' ∉ b → formatS k b true = some b := by
  intro b
  induction b with
  | nil => intro _; rfl
  | cons c rest ih =>
    intro h
    rw [List.mem_cons] at h
    push_neg at h
    have hc : ¬ c = '%' := fun hh => h.1 hh.symm
    rw [formatS.eq_def]
    simp only [if_neg hc, ih h.2]
    rfl

/-- C9: for every format string made of a single `%s` placeholder between two
`%`-free segments, `get_filename` returns the format with the placeholder
replaced by the key; in particular `get_filename "%s.md" "widget"` is
`"widget.md"`. -/
theorem c9_get_filename_subst (a b k : Str) (ha : '%' ∉ a) (hb : '%' ∉ b) :
    get_filename (a ++ '%' :: 's' :: b) k = some (a ++ k ++ b) := by
  unfold get_filename
  induction a with
  | nil =>
    rw [List.nil_append, formatS.eq_def]
    simp [formatS_tail hb]
  | cons c a' ih =>
    rw [List.mem_cons] at ha
    push_neg at ha
    have hc : ¬ c = '%' := fun hh => ha.1 hh.symm
    have hih := ih ha.2
    rw [List.cons_append, formatS.eq_def]
    simp only [if_neg hc, hih]
    simp

/-- C9 witness: the doctest case `get_filename("%s.md", "widget")`. -/
theorem c9_witness :
    '%' ∉ ([] : Str) ∧ '%' ∉ ".md".data ∧
      get_filename (([] : Str) ++ '%' :: 's' :: ".md".data) "widget".data =
        some (([] : Str) ++ "widget".data ++ ".md".data) :=
  ⟨by decide, by decide,
    c9_get_filename_subst [] ".md".data "widget".data (by decide) (by decide)⟩

/-- C10: invoked on an existing folder that is the current working directory,
`clear_folder` only prints the warning and returns: no deletion, no prompt and
no `sys.exit`, for every `force`/`verbose` flag and prompt reply. -/
theorem c10_clear_folder_cwd (fs : Fs) (folder : Str) (force verbose : Bool)
    (resp : Str) (h1 : folder ∈ fs.existing) (h2 : folder = fs.cwd) :
    clear_folder fs folder force verbose resp = ([.warnCwd], false) := by
  unfold clear_folder
  rw [if_neg (by simp [h1]), if_pos h2]

/-- C10 witness: a concrete registry-independent instance. -/
theorem c10_witness :
    "d".data ∈ (["d".data] : List Str) ∧
      clear_folder ⟨"d".data, ["d".data]⟩ "d".data true true "n".data =
        ([.warnCwd], false) :=
  ⟨by decide, c10_clear_folder_cwd ⟨"d".data, ["d".data]⟩ "d".data true true
    "n".data (by decide) rfl⟩

/-- C6: a requested key whose registry value is a raw (unhashable) dict makes
`build_schema_set` raise `TypeError` in the grouping step, although
`process_schema` itself accepts dict-valued schemas. -/
theorem c6_unhashable_dict (reg : Registry) (toks : List Str) (k : Str) (n : Nat)
    (hv : alookup k reg = some (.dict n))
    (hreq : k ∈ indivOf (parseTokens reg toks)) :
    build_schema_set reg toks = .error .typeError ∧
    process_schema reg k none = .ok (.fromDict n) := by
  constructor
  · have hmem : (k, Val.dict n) ∈ reg.reverse :=
      List.mem_reverse.mpr (mem_of_alookup hv)
    have herr : buildRev reg (indivOf (parseTokens reg toks)) = .error .typeError :=
      revFold_error_of_unhashable _ ⟨(k, .dict n), hmem, hreq, rfl⟩
    simp only [build_schema_set]
    rw [herr]
  · simp [process_schema, hv]

/-- C6 witness: a single-key registry holding a raw dict. -/
theorem c6_witness :
    alookup "x".data ([("x".data, Val.dict 0)] : Registry) = some (Val.dict 0) ∧
      "x".data ∈ indivOf (parseTokens [("x".data, Val.dict 0)] ["x".data]) ∧
      build_schema_set [("x".data, Val.dict 0)] ["x".data] = .error .typeError ∧
      process_schema [("x".data, Val.dict 0)] "x".data none = .ok (.fromDict 0) :=
  ⟨by decide, by decide,
    c6_unhashable_dict [("x".data, Val.dict 0)] ["x".data] "x".data 0
      (by decide) (by decide)⟩

/-- C8: whenever `build_schema_set` returns normally, every key in any output
list belongs to the returned requested-key set and to the registry. -/
theorem c8_output_keys_requested (reg : Registry) (toks : List Str) (out : SSet)
    (indiv : List Str) (nm : Str) (ks : List Str) (k : Str)
    (hok : build_schema_set reg toks = .ok (out, indiv))
    (hmem : (nm, ks) ∈ out) (hk : k ∈ ks) :
    k ∈ indiv ∧ k ∈ reg.map Prod.fst := by
  simp only [build_schema_set] at hok
  split at hok
  · exact absurd hok (by simp)
  · rename_i rev hb
    split at hok
    · exact absurd hok (by simp)
    · rename_i out' hm
      have hoe : out' = out ∧ indivOf (parseTokens reg toks) = indiv := by
        refine ⟨?_, ?_⟩ <;> cases hok <;> rfl
      obtain ⟨ho, hind⟩ := hoe
      subst ho
      obtain ⟨p, _, hp⟩ := mapE_ok_mem_inv hm (nm, ks) hmem
      cases hin : mapE (get_main_key rev) p.2 with
      | error e => rw [hin] at hp; exact absurd hp (by simp)
      | ok ks₀ =>
        rw [hin] at hp
        have hks : ks = dedupFirst [] ks₀ := by cases hp; rfl
        have hk₀ : k ∈ ks₀ := mem_of_mem_dedupFirst (hks ▸ hk)
        obtain ⟨x, _, hx⟩ := mapE_ok_mem_inv hin k hk₀
        obtain ⟨hi, w, hw⟩ := get_main_key_ok_val hb hx
        exact ⟨hind ▸ hi, List.mem_map_of_mem Prod.fst hw⟩

/-- C8 witness: a one-key registry and direct request. -/
theorem c8_witness :
    build_schema_set [("x".data, Val.obj 0)] ["x".data] =
        .ok ([("x".data, ["x".data])], ["x".data]) ∧
      "x".data ∈ (["x".data] : List Str) ∧
      "x".data ∈ ([("x".data, Val.obj 0)] : Registry).map Prod.fst :=
  ⟨by rfl, by decide,
    (c8_output_keys_requested [("x".data, Val.obj 0)] ["x".data]
      [("x".data, ["x".data])] ["x".data] "x".data ["x".data] "x".data
      (by rfl) (by decide) (by decide)).2⟩

/-- C1 (amended): in every successful `build_schema_set` run the key
substituted for each requested key is `specCanon`: the key declared last in
the registry's forward insertion order among the *requested* keys sharing its
underlying schema value (not among all registry keys, which is what the claim
as stated asserts).  Every output list is the parsed list mapped through this
substitution and deduplicated. -/
theorem c1_canonical_last_requested (reg : Registry) (toks : List Str)
    (out : SSet) (indiv : List Str) (hnd : (reg.map Prod.fst).Nodup)
    (hok : build_schema_set reg toks = .ok (out, indiv)) :
    out = (parseTokens reg toks).map
      (fun p => (p.1, dedupFirst [] (p.2.map (specCanon reg indiv)))) :=
  (build_schema_set_ok_char hnd hok).2

/-- C1 counterexample: with registry `{"a": S, "b": S}` and request `["a"]`,
the claim's rule (`specCanonAllKeys`, last among *all* keys sharing the
value) picks `"b"`, but the code substitutes `"a"`: the canonical scan is
restricted to requested keys. -/
theorem c1_counterexample :
    build_schema_set [("a".data, Val.obj 0), ("b".data, Val.obj 0)] ["a".data] =
        .ok ([("a".data, ["a".data])], ["a".data]) ∧
      specCanonAllKeys [("a".data, Val.obj 0), ("b".data, Val.obj 0)] "a".data =
        "b".data ∧
      ("a".data : Str) ≠ "b".data :=
  ⟨by rfl, by rfl, by decide⟩

/-- C1 witness: an aliased registry where the last *requested* alias `"y"`
replaces `"x"` in the output list. -/
theorem c1_witness :
    (([("x".data, Val.obj 0), ("y".data, Val.obj 0)] : Registry).map
        Prod.fst).Nodup ∧
      ([("n".data, ["y".data])] : SSet) =
        (parseTokens [("x".data, Val.obj 0), ("y".data, Val.obj 0)]
            ["n:x:y".data]).map
          (fun p => (p.1, dedupFirst [] (p.2.map
            (specCanon [("x".data, Val.obj 0), ("y".data, Val.obj 0)]
              ["x".data, "y".data])))) :=
  ⟨by decide,
    c1_canonical_last_requested [("x".data, Val.obj 0), ("y".data, Val.obj 0)]
      ["n:x:y".data] [("n".data, ["y".data])] ["x".data, "y".data]
      (by decide) (by rfl)⟩

/-! ### Canonical key is the identity when registry values are distinct -/

theorem filter_eq_singleton {α : Type} {l : List α} {p : α → Bool} {x : α}
    (hnd : l.Nodup) (hx : x ∈ l) (hp : p x = true)
    (hu : ∀ y ∈ l, p y = true → y = x) : l.filter p = [x] := by
  induction l with
  | nil => simp at hx
  | cons z rest ih =>
    rw [List.nodup_cons] at hnd
    rw [List.mem_cons] at hx
    by_cases hz : p z = true
    · have hzx : z = x := hu z (by simp) hz
      subst hzx
      have hrest : rest.filter p = [] := by
        rw [List.filter_eq_nil_iff]
        intro a ha hpa
        exact hnd.1 ((hu a (List.mem_cons_of_mem _ ha) hpa) ▸ ha)
      simp [List.filter_cons, hz, hrest]
    · have hxr : x ∈ rest := by
        rcases hx with hx | hx
        · exact absurd (hx ▸ hp) hz
        · exact hx
      rw [List.filter_cons]
      simp only [hz, Bool.false_eq_true, if_false]
      exact ih hnd.2 hxr (fun y hy hpy => hu y (List.mem_cons_of_mem _ hy) hpy)

/-- With pairwise-distinct registry values, the canonical substitution is the
identity on any requested registry key. -/
theorem specCanon_id {reg : Registry} {indiv : List Str} {k : Str} {w : Val}
    (hnd : (reg.map Prod.fst).Nodup) (hv : (reg.map Prod.snd).Nodup)
    (hkw : (k, w) ∈ reg) (hki : k ∈ indiv) :
    specCanon reg indiv k = k := by
  have hlk : alookup k reg = some w := alookup_of_mem_nodup hnd hkw
  have hfil : reg.filter
      (fun q => decide (q.1 ∈ indiv) && decide (alookup k reg = some q.2)) =
      [(k, w)] := by
    apply filter_eq_singleton (List.Nodup.of_map Prod.fst hnd) hkw
    · simp [hki, hlk]
    · intro q hq hpq
      simp only [Bool.and_eq_true, decide_eq_true_eq] at hpq
      rw [hlk] at hpq
      have hqw : q.2 = w := (Option.some.inj hpq.2).symm
      have : (k, w).2 = q.2 := by simp [hqw]
      exact (List.inj_on_of_nodup_map hv hq hkw (by simp [hqw])).symm ▸ rfl
  unfold specCanon
  rw [hfil]
  rfl

/-! ### Assembly lemmas for `build_schema_set` -/

theorem build_schema_set_eq_ok {reg : Registry} {toks : List Str} {rev : RevMap}
    {out : SSet}
    (hrev : buildRev reg (indivOf (parseTokens reg toks)) = .ok rev)
    (hout : mapE (fun p =>
        match mapE (get_main_key rev) p.2 with
        | .error e => .error e
        | .ok ks => .ok (p.1, dedupFirst [] ks)) (parseTokens reg toks) = .ok out) :
    build_schema_set reg toks = .ok (out, indivOf (parseTokens reg toks)) := by
  simp only [build_schema_set]
  split
  · rename_i e he
    rw [he] at hrev
    exact absurd hrev (by simp)
  · rename_i rev' hb
    have hre : rev' = rev := by
      rw [hb] at hrev
      exact Except.ok.inj hrev
    subst hre
    split
    · rename_i e he
      rw [he] at hout
      exact absurd hout (by simp)
    · rename_i out' ho
      rw [ho] at hout
      rw [Except.ok.inj hout]

theorem build_schema_set_eq_error_mapE {reg : Registry} {toks : List Str}
    {rev : RevMap} {e : PyErr}
    (hrev : buildRev reg (indivOf (parseTokens reg toks)) = .ok rev)
    (hout : mapE (fun p =>
        match mapE (get_main_key rev) p.2 with
        | .error e => .error e
        | .ok ks => .ok (p.1, dedupFirst [] ks)) (parseTokens reg toks) = .error e) :
    build_schema_set reg toks = .error e := by
  simp only [build_schema_set]
  split
  · rename_i e' he
    rw [he] at hrev
    exact absurd hrev (by simp)
  · rename_i rev' hb
    have hre : rev' = rev := by
      rw [hb] at hrev
      exact Except.ok.inj hrev
    subst hre
    split
    · rename_i e' he
      rw [he] at hout
      exact Except.error.inj hout ▸ rfl
    · rename_i out' ho
      rw [ho] at hout
      exact absurd hout (by simp)

theorem indivOf_map_singleton (reg : Registry) :
    indivOf (reg.map (fun p => (p.1, [p.1]))) = reg.map Prod.fst := by
  induction reg with
  | nil => rfl
  | cons q rest ih =>
    simp only [indivOf, List.map_cons, List.flatten_cons] at ih ⊢
    rw [ih]
    rfl

/-- C3 (amended): for the request consisting of exactly the token `"all"`, on
a registry with hashable values, the schema set has exactly one output entry
per registry key, in registry order, and each entry maps to the single-element
list holding the canonical representative of its key (the key itself whenever
no other requested key shares its value). -/
theorem c3_all_token_amended (reg : Registry) (hnd : (reg.map Prod.fst).Nodup)
    (hh : ∀ q ∈ reg, hashable q.2 = true) :
    build_schema_set reg ["all".data] =
      .ok (reg.map (fun p => (p.1, [specCanon reg (reg.map Prod.fst) p.1])),
           reg.map Prod.fst) := by
  have hs : parseTokens reg ["all".data] = reg.map (fun p => (p.1, [p.1])) :=
    parseTokens_all reg hnd
  have hindiv : indivOf (parseTokens reg ["all".data]) = reg.map Prod.fst := by
    rw [hs]
    exact indivOf_map_singleton reg
  obtain ⟨rev, hrev0⟩ := revFold_ok_of_hashable (reg.map Prod.fst)
      ([] : RevMap) (fun q hq _ => hh q (List.mem_reverse.mp hq))
  have hrev : buildRev reg (indivOf (parseTokens reg ["all".data])) = .ok rev := by
    rw [hindiv]
    exact hrev0
  have hgm : ∀ q ∈ reg, get_main_key rev q.1 =
      .ok (specCanon reg (reg.map Prod.fst) q.1) := fun q hq =>
    get_main_key_spec hnd hrev0 (alookup_of_mem_nodup hnd hq)
      (List.mem_map_of_mem Prod.fst hq)
  have hout : mapE (fun p =>
      match mapE (get_main_key rev) p.2 with
      | .error e => .error e
      | .ok ks => .ok (p.1, dedupFirst [] ks)) (parseTokens reg ["all".data]) =
      .ok (reg.map (fun p => (p.1, [specCanon reg (reg.map Prod.fst) p.1]))) := by
    rw [hs]
    rw [mapE_ok_of_forall
      (fun p => (p.1, [specCanon reg (reg.map Prod.fst) p.1]))
      (by
        intro p hp
        obtain ⟨q, hq, rfl⟩ := List.mem_map.mp hp
        have hq1 := hgm q hq
        simp [mapE, hq1, dedupFirst])]
    rw [List.map_map]
    rfl
  have := build_schema_set_eq_ok hrev hout
  rw [hindiv] at this
  exact this

/-- C3 counterexample: registry `{"x": S, "y": S}` (aliased) with tokens
`["all", "rep:x"]`: the result has three entries for two registry keys, and
the entry for `"x"` maps to `["y"]`, not `["x"]`. -/
theorem c3_counterexample :
    build_schema_set [("x".data, Val.obj 0), ("y".data, Val.obj 0)]
        ["all".data, "rep:x".data] =
      .ok ([("x".data, ["y".data]), ("y".data, ["y".data]),
            ("rep".data, ["y".data])],
           ["x".data, "y".data, "x".data]) ∧
      alookup "x".data ([("x".data, ["y".data]), ("y".data, ["y".data]),
            ("rep".data, ["y".data])] : SSet) ≠ some ["x".data] ∧
      ([("x".data, ["y".data]), ("y".data, ["y".data]),
        ("rep".data, ["y".data])] : SSet).length ≠
        ([("x".data, Val.obj 0), ("y".data, Val.obj 0)] : Registry).length :=
  ⟨by rfl, by decide, by decide⟩

/-- C3 witness: an alias-free two-key registry, where each entry maps to its
own key. -/
theorem c3_witness :
    (([("x".data, Val.obj 0), ("y".data, Val.obj 1)] : Registry).map
        Prod.fst).Nodup ∧
      build_schema_set [("x".data, Val.obj 0), ("y".data, Val.obj 1)]
          ["all".data] =
        .ok (([("x".data, Val.obj 0), ("y".data, Val.obj 1)] : Registry).map
              (fun p => (p.1, [specCanon [("x".data, Val.obj 0),
                ("y".data, Val.obj 1)] (["x".data, "y".data]) p.1])),
             ["x".data, "y".data]) :=
  ⟨by decide,
    c3_all_token_amended [("x".data, Val.obj 0), ("y".data, Val.obj 1)]
      (by decide) (by decide)⟩

/-- Parsing a grouped token (two or more colon-separated components). -/
theorem parseTok_grouped {tok nm k1 : Str} {rest : List Str} (reg : Registry)
    (acc : SSet) (hsp : splitChars tok = nm :: k1 :: rest) :
    parseTok reg acc tok =
      if hasSub ":all".data tok then updD acc nm (reg.map Prod.fst)
      else updD acc nm (k1 :: rest) := by
  unfold parseTok
  rw [hsp]

/-- C4 (amended): for the single token `"<name>:all"` (colon-free name) on a
registry with hashable, pairwise-distinct values, `build_schema_set` produces
exactly one entry named `<name>` listing every registry key in registry
order.  (With aliased values the list instead holds the deduplicated
canonical representatives — see the counterexample.) -/
theorem c4_name_all_amended (reg : Registry) (n : Str)
    (hnd : (reg.map Prod.fst).Nodup) (hcolon : ':' ∉ n)
    (hv : (reg.map Prod.snd).Nodup) (hh : ∀ q ∈ reg, hashable q.2 = true) :
    build_schema_set reg [n ++ ":all".data] =
      .ok ([(n, reg.map Prod.fst)], reg.map Prod.fst) := by
  have hsp : splitChars (n ++ ":all".data) = n :: ["all".data] := by
    have h1 : n ++ ":all".data = n ++ ':' :: "all".data := rfl
    rw [h1, splitChars_append_colon _ hcolon, splitChars_no_colon (by decide)]
  have hparse : parseTokens reg [n ++ ":all".data] = [(n, reg.map Prod.fst)] := by
    simp only [parseTokens, List.foldl_cons, List.foldl_nil]
    rw [parseTok_grouped reg [] hsp, if_pos (hasSub_colon_all n)]
    rfl
  have hindiv : indivOf (parseTokens reg [n ++ ":all".data]) = reg.map Prod.fst := by
    rw [hparse]
    simp [indivOf]
  obtain ⟨rev, hrev0⟩ := revFold_ok_of_hashable (reg.map Prod.fst)
      ([] : RevMap) (fun q hq _ => hh q (List.mem_reverse.mp hq))
  have hrev : buildRev reg (indivOf (parseTokens reg [n ++ ":all".data])) = .ok rev := by
    rw [hindiv]
    exact hrev0
  have hgm : ∀ x ∈ reg.map Prod.fst, get_main_key rev x = .ok x := by
    intro x hx
    obtain ⟨q, hq, rfl⟩ := List.mem_map.mp hx
    have := get_main_key_spec hnd hrev0 (alookup_of_mem_nodup hnd hq)
      (List.mem_map_of_mem Prod.fst hq)
    rwa [specCanon_id hnd hv hq (List.mem_map_of_mem Prod.fst hq)] at this
  have hinner : mapE (get_main_key rev) (reg.map Prod.fst) =
      .ok (reg.map Prod.fst) := by
    have := mapE_ok_of_forall (f := get_main_key rev)
      (l := reg.map Prod.fst) id (fun x hx => hgm x hx)
    rwa [List.map_id] at this
  have hout : mapE (fun p =>
      match mapE (get_main_key rev) p.2 with
      | .error e => .error e
      | .ok ks => .ok (p.1, dedupFirst [] ks)) (parseTokens reg [n ++ ":all".data]) =
      .ok [(n, reg.map Prod.fst)] := by
    rw [hparse]
    have hded : dedupFirst [] (reg.map Prod.fst) = reg.map Prod.fst :=
      dedupFirst_eq_self hnd (by simp)
    simp [mapE, hinner, hded]
  have := build_schema_set_eq_ok hrev hout
  rw [hindiv] at this
  exact this

/-- C4 counterexample: with aliased registry `{"x": S, "y": S}` and token
`"n:all"`, the output list for `"n"` is `["y"]`: it does not contain every
registry key (`"x"` is missing). -/
theorem c4_counterexample :
    build_schema_set [("x".data, Val.obj 0), ("y".data, Val.obj 0)]
        ["n:all".data] =
      .ok ([("n".data, ["y".data])], ["x".data, "y".data]) ∧
      "x".data ∈ ([("x".data, Val.obj 0), ("y".data, Val.obj 0)] : Registry).map
        Prod.fst ∧
      "x".data ∉ (["y".data] : List Str) :=
  ⟨by rfl, by decide, by decide⟩

/-- C4 witness: an alias-free registry, where `"n:all"` lists every key in
registry order. -/
theorem c4_witness :
    ':' ∉ "n".data ∧
      build_schema_set [("x".data, Val.obj 0), ("y".data, Val.obj 1)]
          ["n".data ++ ":all".data] =
        .ok ([("n".data, ([("x".data, Val.obj 0), ("y".data, Val.obj 1)] :
              Registry).map Prod.fst)], ["x".data, "y".data]) :=
  ⟨by decide,
    c4_name_all_amended [("x".data, Val.obj 0), ("y".data, Val.obj 1)] "n".data
      (by decide) (by decide) (by decide) (by decide)⟩

/-- C2 (amended): a single grouped token `"<name>:<k1>:...:<kn>"` that does
not contain the substring `":all"`, whose components are registry keys with
pairwise-distinct hashable values, produces exactly the output entry
`(<name>, [k1, ..., kn])`, regardless of registry order.  (A token merely
*containing* `":all"` — e.g. a component named `"allx"` — instead expands to
the whole registry, which is what the claim as stated does not allow for.) -/
theorem c2_grouped_token_amended (reg : Registry) (tok nm : Str) (ks : List Str)
    (hnd : (reg.map Prod.fst).Nodup)
    (hsp : splitChars tok = nm :: ks) (hne : ks ≠ [])
    (hni : hasSub ":all".data tok = false)
    (hvs : ∀ k ∈ ks, ∃ v, alookup k reg = some v ∧ hashable v = true)
    (hvn : (ks.map (fun k => alookup k reg)).Nodup) :
    build_schema_set reg [tok] = .ok ([(nm, ks)], ks) := by
  cases ks with
  | nil => exact absurd rfl hne
  | cons k1 ks' =>
  have hparse : parseTokens reg [tok] = [(nm, k1 :: ks')] := by
    simp only [parseTokens, List.foldl_cons, List.foldl_nil]
    rw [parseTok_grouped reg [] hsp, if_neg (by simp [hni])]
    rfl
  have hindiv : indivOf (parseTokens reg [tok]) = k1 :: ks' := by
    rw [hparse]
    simp [indivOf]
  obtain ⟨rev, hrev0⟩ := revFold_ok_of_hashable (k1 :: ks')
      ([] : RevMap) (by
        intro q hq hqk
        obtain ⟨v, hva, hvh⟩ := hvs q.1 hqk
        have hq' : (q.1, q.2) ∈ reg := List.mem_reverse.mp hq
        have := alookup_of_mem_nodup hnd hq'
        rw [this] at hva
        rw [Option.some.inj hva]
        exact hvh)
  have hrev : buildRev reg (indivOf (parseTokens reg [tok])) = .ok rev := by
    rw [hindiv]
    exact hrev0
  have hcanon : ∀ k ∈ k1 :: ks', specCanon reg (k1 :: ks') k = k := by
    intro k hk
    obtain ⟨v, hvk, _⟩ := hvs k hk
    have hkw : (k, v) ∈ reg := mem_of_alookup hvk
    have hfil : reg.filter
        (fun q => decide (q.1 ∈ k1 :: ks') &&
          decide (alookup k reg = some q.2)) = [(k, v)] := by
      apply filter_eq_singleton (List.Nodup.of_map Prod.fst hnd) hkw
      · simp [hk, hvk]
      · intro q hq hpq
        simp only [Bool.and_eq_true, decide_eq_true_eq] at hpq
        have hj : alookup q.1 reg = some q.2 := alookup_of_mem_nodup hnd hq
        have heq : alookup q.1 reg = alookup k reg := by
          rw [hj, hpq.2]
        have hjk : q.1 = k :=
          List.inj_on_of_nodup_map hvn hpq.1 hk heq
        have hq2 : q.2 = v := by
          rw [hjk] at hj
          rw [hvk] at hj
          exact (Option.some.inj hj).symm
        calc q = (q.1, q.2) := rfl
          _ = (k, v) := by rw [hjk, hq2]
    unfold specCanon
    rw [hfil]
    rfl
  have hgm : ∀ k ∈ k1 :: ks', get_main_key rev k = .ok k := by
    intro k hk
    obtain ⟨v, hvk, _⟩ := hvs k hk
    have := get_main_key_spec hnd hrev0 hvk hk
    rwa [hcanon k hk] at this
  have hinner : mapE (get_main_key rev) (k1 :: ks') = .ok (k1 :: ks') := by
    have := mapE_ok_of_forall (f := get_main_key rev) (l := k1 :: ks') id
      (fun x hx => hgm x hx)
    rwa [List.map_id] at this
  have hded : dedupFirst [] (k1 :: ks') = k1 :: ks' :=
    dedupFirst_eq_self (List.Nodup.of_map _ hvn) (by simp)
  have hout : mapE (fun p =>
      match mapE (get_main_key rev) p.2 with
      | .error e => .error e
      | .ok ks => .ok (p.1, dedupFirst [] ks)) (parseTokens reg [tok]) =
      .ok [(nm, k1 :: ks')] := by
    rw [hparse]
    rw [mapE_ok_of_forall (fun _ => (nm, k1 :: ks'))
      (by
        intro p hp
        rw [List.mem_singleton] at hp
        subst hp
        simp only [hinner, hded])]
    rfl
  have := build_schema_set_eq_ok hrev hout
  rw [hindiv] at this
  exact this

/-- C2 counterexample: the guard is a *substring* test `":all" in key`.  The
token `"report:allx"` has the single component `"allx"` (not the literal
`"all"`), a registry key with its own distinct value, yet the output entry is
the whole registry `["doc", "allx"]` instead of `["allx"]`. -/
theorem c2_counterexample :
    splitChars "report:allx".data = ["report".data, "allx".data] ∧
      "allx".data ≠ "all".data ∧
      alookup "allx".data ([("doc".data, Val.obj 1), ("allx".data, Val.obj 2)] :
        Registry) = some (Val.obj 2) ∧
      build_schema_set [("doc".data, Val.obj 1), ("allx".data, Val.obj 2)]
          ["report:allx".data] =
        .ok ([("report".data, ["doc".data, "allx".data])],
             ["doc".data, "allx".data]) ∧
      (["doc".data, "allx".data] : List Str) ≠ ["allx".data] :=
  ⟨by decide, by decide, by decide, by rfl, by decide⟩

/-- C2 witness: `"rep:b:a"` against a registry declared in the order `a, b`
yields exactly `(rep, [b, a])`, honoring the token order. -/
theorem c2_witness :
    splitChars "rep:b:a".data = "rep".data :: ["b".data, "a".data] ∧
      hasSub ":all".data "rep:b:a".data = false ∧
      build_schema_set [("a".data, Val.obj 0), ("b".data, Val.obj 1)]
          ["rep:b:a".data] =
        .ok ([("rep".data, ["b".data, "a".data])], ["b".data, "a".data]) :=
  ⟨by decide, by decide,
    c2_grouped_token_amended [("a".data, Val.obj 0), ("b".data, Val.obj 1)]
      "rep:b:a".data "rep".data ["b".data, "a".data]
      (by decide) (by decide) (by decide) (by decide)
      (by
        intro k hk
        rcases List.mem_cons.mp hk with h | h
        · exact ⟨Val.obj 1, by rw [h]; decide⟩
        · rcases List.mem_cons.mp h with h | h
          · exact ⟨Val.obj 0, by rw [h]; decide⟩
          · simp at h)
      (by decide)⟩

theorem get_main_key_error_shape {rev : RevMap} {k : Str} {e : PyErr}
    (h : get_main_key rev k = .error e) : e = .keyError k := by
  unfold get_main_key at h
  cases hf : rev.find? (fun g => decide (k ∈ g.2)) with
  | some g => rw [hf] at h; exact absurd h (by simp)
  | none =>
    rw [hf] at h
    cases h
    rfl

theorem get_main_key_error_of_missing {reg : Registry} {indiv : List Str}
    {rev : RevMap} {k : Str} (hrev : buildRev reg indiv = .ok rev)
    (hnone : alookup k reg = none) :
    get_main_key rev k = .error (.keyError k) := by
  cases hg : get_main_key rev k with
  | ok c =>
    obtain ⟨_, w, hw⟩ := get_main_key_ok_inv hrev hg
    obtain ⟨w', hw'⟩ := alookup_isSome_of_mem hw
    rw [hnone] at hw'
    exact absurd hw' (by simp)
  | error e =>
    rw [get_main_key_error_shape hg]

/-- C5 (amended): when some schema key of the *parsed* schema set (i.e.
after last-write-wins token overwriting) is absent from the registry and the
registry values are hashable, `build_schema_set` raises `KeyError` and `main`
performs no file-system effect at all: no directory clearing and no file
writes precede the failure. -/
theorem c5_missing_key_amended (fs : Fs) (reg : Registry) (toks : List Str)
    (fmt folder : Str) (verbose clean force wIdx : Bool) (resp : Str)
    (hh : ∀ q ∈ reg, hashable q.2 = true)
    (hbad : ∃ p ∈ parseTokens reg toks, ∃ k ∈ p.2, alookup k reg = none) :
    ∃ k', build_schema_set reg toks = .error (.keyError k') ∧
      mainRun fs reg toks fmt folder verbose clean force wIdx resp =
        ([], some (.keyError k')) := by
  obtain ⟨p, hp, k0, hk0, hnone⟩ := hbad
  obtain ⟨rev, hrev0⟩ := revFold_ok_of_hashable
      (indivOf (parseTokens reg toks)) ([] : RevMap)
      (fun q hq _ => hh q (List.mem_reverse.mp hq))
  have hrev : buildRev reg (indivOf (parseTokens reg toks)) = .ok rev := hrev0
  have hgm : get_main_key rev k0 = .error (.keyError k0) :=
    get_main_key_error_of_missing hrev hnone
  obtain ⟨e1, he1⟩ := mapE_error_of_mem hk0 hgm
  cases hm : mapE (fun p =>
      match mapE (get_main_key rev) p.2 with
      | .error e => .error e
      | .ok ks => .ok (p.1, dedupFirst [] ks)) (parseTokens reg toks) with
  | ok outX =>
    obtain ⟨y, hy⟩ := mapE_ok_forall hm p hp
    rw [he1] at hy
    exact absurd hy (by simp)
  | error e2 =>
    have hshape : ∃ k', e2 = .keyError k' := by
      obtain ⟨p', _, hFp'⟩ := mapE_error_inv hm
      cases hin : mapE (get_main_key rev) p'.2 with
      | ok ks =>
        rw [hin] at hFp'
        exact absurd hFp' (by simp)
      | error e3 =>
        rw [hin] at hFp'
        obtain ⟨x, _, hgx⟩ := mapE_error_inv hin
        have he32 : e3 = e2 := Except.error.inj hFp'
        exact ⟨x, he32 ▸ get_main_key_error_shape hgx⟩
    obtain ⟨k', hk'⟩ := hshape
    subst hk'
    have hb := build_schema_set_eq_error_mapE hrev hm
    refine ⟨k', hb, ?_⟩
    unfold mainRun
    rw [hb]

/-- C5 counterexample: `"bad"` is a schema key referenced by the token
`"rep:bad"` and absent from the registry, but the later token `"rep:x"`
overwrites the entry, so the run succeeds and writes an output — no lookup
failure is raised for keys referenced only by overwritten tokens. -/
theorem c5_counterexample :
    "bad".data ∈ tokVal [("x".data, Val.obj 0)] "rep:bad".data "rep".data ∧
      alookup "bad".data ([("x".data, Val.obj 0)] : Registry) = none ∧
      build_schema_set [("x".data, Val.obj 0)]
          ["rep:bad".data, "rep:x".data] =
        .ok ([("rep".data, ["x".data])], ["x".data]) :=
  ⟨by decide, by decide, by rfl⟩

/-- C5 witness: requesting the absent key `"bad"` (not overwritten) raises
`KeyError` and `main` produces an empty effect trace. -/
theorem c5_witness :
    (∀ q ∈ ([("x".data, Val.obj 0)] : Registry), hashable q.2 = true) ∧
      (∃ p ∈ parseTokens [("x".data, Val.obj 0)] ["rep:bad".data],
        ∃ k ∈ p.2, alookup k ([("x".data, Val.obj 0)] : Registry) = none) ∧
      ∃ k', build_schema_set [("x".data, Val.obj 0)] ["rep:bad".data] =
          .error (.keyError k') ∧
        mainRun ⟨"cwd".data, []⟩ [("x".data, Val.obj 0)] ["rep:bad".data]
            "%s.md".data "out".data false true false true [] =
          ([], some (.keyError k')) :=
  ⟨by decide, by decide,
    c5_missing_key_amended ⟨"cwd".data, []⟩ [("x".data, Val.obj 0)]
      ["rep:bad".data] "%s.md".data "out".data false true false true []
      (by decide) (by decide)⟩

/-! ### Last-write-wins machinery (C7) -/

theorem assignsTo_of_split {reg : Registry} {t nm : Str} {rs : List Str}
    (hs : splitChars t = nm :: rs) (hne : t ≠ "all".data) (m : Str) :
    assignsTo reg t m = decide (m = nm) := by
  unfold assignsTo
  rw [hs]
  cases rs with
  | nil =>
    have hnm : ¬ nm = "all".data := by
      intro h
      exact hne ((splitChars_single_inv hs).trans h)
    simp [hnm]
  | cons a b => rfl

theorem findLast_fold_indep {reg : Registry} {m : Str} :
    ∀ {post : List Str}, (∃ u ∈ post, assignsTo reg u m = true) →
      ∀ o o' : Option (List Str),
        post.foldl (fun o tok => if assignsTo reg tok m then
          some (tokVal reg tok m) else o) o =
        post.foldl (fun o tok => if assignsTo reg tok m then
          some (tokVal reg tok m) else o) o' := by
  intro post
  induction post with
  | nil => intro h; simp at h
  | cons u0 rest ih =>
    intro h o o'
    by_cases h0 : assignsTo reg u0 m = true
    · simp [List.foldl_cons, h0]
    · obtain ⟨u, hu, hau⟩ := h
      rw [List.mem_cons] at hu
      rcases hu with hu | hu
      · rw [hu] at hau
        exact absurd hau h0
      · simp only [List.foldl_cons, h0, Bool.false_eq_true, if_false]
        exact ih ⟨u, hu, hau⟩ o o'

theorem findLastAssign_skip {reg : Registry} {pre post : List Str} {t nm : Str}
    {rs : List Str} (hs : splitChars t = nm :: rs) (hne : t ≠ "all".data)
    (hp : ∃ u ∈ post, assignsTo reg u nm = true) (m : Str) :
    findLastAssign reg (pre ++ t :: post) m =
      findLastAssign reg (pre ++ post) m := by
  unfold findLastAssign
  rw [List.foldl_append, List.foldl_append, List.foldl_cons]
  by_cases hm : m = nm
  · subst hm
    exact findLast_fold_indep hp _ _
  · have hat : assignsTo reg t m = false := by
      rw [assignsTo_of_split hs hne m]
      simp [hm]
    simp [hat]

theorem mem_indivOf {s : SSet} {x : Str} : x ∈ indivOf s ↔ ∃ p ∈ s, x ∈ p.2 := by
  unfold indivOf
  rw [List.mem_flatten]
  constructor
  · rintro ⟨l, hl, hx⟩
    obtain ⟨p, hp, rfl⟩ := List.mem_map.mp hl
    exact ⟨p, hp, hx⟩
  · rintro ⟨p, hp, hx⟩
    exact ⟨p.2, List.mem_map_of_mem Prod.snd hp, hx⟩

/-- The output map of the dedup stage, looked up by entry name, as a function
of the parsed entry for that name. -/
theorem mapE_out_alookup {rev : RevMap} :
    ∀ {s : SSet} {out : SSet},
      mapE (fun p =>
        match mapE (get_main_key rev) p.2 with
        | .error e => .error e
        | .ok ks => .ok (p.1, dedupFirst [] ks)) s = .ok out →
      ∀ m, alookup m out =
        match alookup m s with
        | none => none
        | some ks =>
          match mapE (get_main_key rev) ks with
          | .error _ => none
          | .ok ks' => some (dedupFirst [] ks') := by
  intro s
  induction s with
  | nil =>
    intro out h m
    simp only [mapE] at h
    cases h
    rfl
  | cons p rest ih =>
    intro out h m
    cases hin : mapE (get_main_key rev) p.2 with
    | error e =>
      simp only [mapE, hin] at h
      exact absurd h (by simp)
    | ok ks' =>
      simp only [mapE, hin] at h
      cases hrest : mapE (fun p =>
          match mapE (get_main_key rev) p.2 with
          | .error e => .error e
          | .ok ks => .ok (p.1, dedupFirst [] ks)) rest with
      | error e => rw [hrest] at h; exact absurd h (by simp)
      | ok ys =>
        rw [hrest] at h
        have hout : out = (p.1, dedupFirst [] ks') :: ys := (Except.ok.inj h).symm
        subst hout
        by_cases hpm : p.1 = m
        · simp [alookup, hpm, hin]
        · simp [alookup, hpm, ih hrest m]

/-- C7: when an earlier token and a later token resolve to the same output
name, the earlier token's write is irrelevant — the parsed entry for that
name, and the entry in the built schema set, are exactly those obtained
without the earlier token (last write wins, mapping semantics). -/
theorem c7_last_write_wins (reg : Registry) (pre post : List Str) (t nm : Str)
    (rs : List Str) (hs : splitChars t = nm :: rs) (hne : t ≠ "all".data)
    (hp : ∃ u ∈ post, assignsTo reg u nm = true) :
    (∀ m, alookup m (parseTokens reg (pre ++ t :: post)) =
        alookup m (parseTokens reg (pre ++ post))) ∧
    (∀ o₁ i₁ o₂ i₂,
      build_schema_set reg (pre ++ t :: post) = .ok (o₁, i₁) →
      build_schema_set reg (pre ++ post) = .ok (o₂, i₂) →
      ∀ m, alookup m o₁ = alookup m o₂) := by
  have ha : ∀ m, alookup m (parseTokens reg (pre ++ t :: post)) =
      alookup m (parseTokens reg (pre ++ post)) := by
    intro m
    rw [parseTokens_alookup, parseTokens_alookup, findLastAssign_skip hs hne hp m]
  refine ⟨ha, ?_⟩
  intro o₁ i₁ o₂ i₂ h1 h2 m
  have hnd1 := parseTokens_keys_nodup reg (pre ++ t :: post)
  have hnd2 := parseTokens_keys_nodup reg (pre ++ post)
  have hiff : ∀ x, x ∈ indivOf (parseTokens reg (pre ++ t :: post)) ↔
      x ∈ indivOf (parseTokens reg (pre ++ post)) := by
    intro x
    rw [mem_indivOf, mem_indivOf]
    constructor
    · rintro ⟨p, hp', hx⟩
      have hl := alookup_of_mem_nodup hnd1 hp'
      rw [ha p.1] at hl
      exact ⟨(p.1, p.2), mem_of_alookup hl, hx⟩
    · rintro ⟨p, hp', hx⟩
      have hl := alookup_of_mem_nodup hnd2 hp'
      rw [← ha p.1] at hl
      exact ⟨(p.1, p.2), mem_of_alookup hl, hx⟩
  have hbr : buildRev reg (indivOf (parseTokens reg (pre ++ t :: post))) =
      buildRev reg (indivOf (parseTokens reg (pre ++ post))) :=
    revFold_congr hiff reg.reverse []
  simp only [build_schema_set] at h1 h2
  split at h1
  · exact absurd h1 (by simp)
  · rename_i rev1 hb1
    split at h1
    · exact absurd h1 (by simp)
    · rename_i out1 hm1
      split at h2
      · exact absurd h2 (by simp)
      · rename_i rev2 hb2
        split at h2
        · exact absurd h2 (by simp)
        · rename_i out2 hm2
          have hrev12 : rev1 = rev2 := by
            rw [hb1, hb2] at hbr
            exact Except.ok.inj hbr
          subst hrev12
          have ho1 : out1 = o₁ := by cases h1; rfl
          have ho2 : out2 = o₂ := by cases h2; rfl
          subst ho1
          subst ho2
          rw [mapE_out_alookup hm1 m, mapE_out_alookup hm2 m, ha m]

/-- C7 witness: with registry `{x, y}` and tokens `["n:x", "n:y"]`, the entry
`"n"` is the one produced by the later token. -/
theorem c7_witness :
    splitChars "n:x".data = "n".data :: ["x".data] ∧
      (∃ u ∈ (["n:y".data] : List Str),
        assignsTo [("x".data, Val.obj 0), ("y".data, Val.obj 1)] u
          "n".data = true) ∧
      alookup "n".data (parseTokens [("x".data, Val.obj 0), ("y".data, Val.obj 1)]
          ([] ++ "n:x".data :: ["n:y".data])) =
        alookup "n".data (parseTokens [("x".data, Val.obj 0), ("y".data, Val.obj 1)]
          ([] ++ ["n:y".data])) ∧
      alookup "n".data ([("n".data, ["y".data])] : SSet) =
        alookup "n".data ([("n".data, ["y".data])] : SSet) :=
  ⟨by decide, by decide,
    (c7_last_write_wins [("x".data, Val.obj 0), ("y".data, Val.obj 1)] []
      ["n:y".data] "n:x".data "n".data ["x".data] (by decide) (by decide)
      (by decide)).1 "n".data,
    (c7_last_write_wins [("x".data, Val.obj 0), ("y".data, Val.obj 1)] []
      ["n:y".data] "n:x".data "n".data ["x".data] (by decide) (by decide)
      (by decide)).2 [("n".data, ["y".data])] ["y".data]
      [("n".data, ["y".data])] ["y".data] (by rfl) (by rfl) "n".data⟩

end SchemaDoc
